import Mathlib

/-!
Verification of the tournament trading decision-support core.

The Python service code under `src/` is embedded shallowly: Python dicts
become association lists (`List (String × ℚ)`), floats become exact
rationals, and the per-claim service functions are transcribed
definition by definition.  The Rust extension `tourney_core` is not part
of the repository sources; its entry points (`calculate_win_prob`,
`calculate_scores_prob`, `calculate_scores_prob_batch`,
`get_portfolio_value`'s inner sum) are modelled from the specification
and appear either as parameters of the embedded functions or as
definitions whose doc comment begins `Modelled from the spec:`.
-/

set_option autoImplicit false

namespace Tourney

/-- Python `d.get(k, default)` on an association list that models a dict:
the value of the first binding of `k`, or `default` when `k` is not a key. -/
def dictGet (d : List (String × ℚ)) (k : String) (default : ℚ) : ℚ :=
  match d.find? (fun e => e.fst = k) with
  | some e => e.snd
  | none => default

/-- Python `d[k] = v` on an association list that models a dict:
replace the first binding of `k` in place, or append a new binding. -/
def dictSet : List (String × ℚ) → String → ℚ → List (String × ℚ)
  | [], k, v => [(k, v)]
  | e :: rest, k, v => if e.fst = k then (k, v) :: rest else e :: dictSet rest k v

/-- Python `d[k] = d.get(k, 0) + p`, the accumulation pattern used by
`compute_bracket_rounds` in `src/api/services/tournament_service.py`. -/
def dictAdd (d : List (String × ℚ)) (k : String) (p : ℚ) : List (String × ℚ) :=
  dictSet d k (dictGet d k 0 + p)

/-- Python `k in d` for a dict modelled as an association list. -/
def isKey (d : List (String × ℚ)) (k : String) : Bool :=
  (d.find? (fun e => e.fst = k)).isSome

/-- Sum of the values of a dict, Python `sum(d.values())`. -/
def sumValues (d : List (String × ℚ)) : ℚ :=
  (d.map (fun e => e.snd)).sum

/-! ### Team-name resolution (`src/team_names.py`)

The equivalence-class table `EQUIVALENCE_CLASSES` is a data literal; it is
passed here as the parameter `classes`.  `_LOOKUP.get(name)` returns the
frozenset of the class containing `name`; iteration order over a frozenset is
modelled as the listed order of the class. -/

/-- The class containing `name`, as `_LOOKUP.get(name)` in `src/team_names.py`. -/
def lookupClass (classes : List (List String)) (name : String) : Option (List String) :=
  classes.find? (fun cls => name ∈ cls)

/-- `resolve_name` from `src/team_names.py`: exact match first, then the first
equivalent name that is a key of `targetNames`; the `KeyError` is `none`. -/
def resolveName (classes : List (List String)) (name : String)
    (targetNames : List (String × ℚ)) : Option String :=
  if isKey targetNames name then some name
  else
    match lookupClass classes name with
    | some cls => cls.find? (fun equiv => isKey targetNames equiv)
    | none => none

/-- `try_resolve_name` from `src/team_names.py`: like `resolveName` but
returns the original name instead of raising. -/
def tryResolveName (classes : List (List String)) (name : String)
    (targetNames : List (String × ℚ)) : String :=
  (resolveName classes name targetNames).getD name

/-! ### Portfolio valuation (`src/portfolio_value.py`) -/

/-- Modelled from the spec: `tourney_core.get_portfolio_value` (Rust, not in
the repository sources).  Per the spec's PortfolioValuer contract, each
position contributes `quantity × scores[team]`, and a position whose team is
not a key of the scores map is skipped with a warning. -/
def rustGetPortfolioValue (floatPositions values : List (String × ℚ)) : ℚ :=
  (floatPositions.map (fun e =>
    match values.find? (fun s => s.fst = e.fst) with
    | some s => e.snd * s.snd
    | none => 0)).sum

/-- The loop of `get_portfolio_value` in `src/portfolio_value.py` (lines
109-129): `totalValue` accumulates the direct `"points"` quantities, and
`floatPositions` is the dict of name-resolved team positions handed to the
Rust sum at the end.  Zero quantities are skipped (`if not count: continue`). -/
def getPortfolioValueGo (classes : List (List String)) (values : List (String × ℚ)) :
    List (String × ℚ) → ℚ → List (String × ℚ) → ℚ
  | [], totalValue, floatPositions => totalValue + rustGetPortfolioValue floatPositions values
  | (team, count) :: rest, totalValue, floatPositions =>
    if count = 0 then getPortfolioValueGo classes values rest totalValue floatPositions
    else if team = "points" then
      getPortfolioValueGo classes values rest (totalValue + count) floatPositions
    else
      getPortfolioValueGo classes values rest totalValue
        (dictSet floatPositions (tryResolveName classes team values) count)

/-- `get_portfolio_value(positions, values)` from `src/portfolio_value.py`. -/
def getPortfolioValue (classes : List (List String))
    (positions values : List (String × ℚ)) : ℚ :=
  getPortfolioValueGo classes values positions 0 []

/-- Adding `k` to the quantity stored under the distinguished cash key
`"points"` of a positions dict: the first `"points"` binding is bumped by `k`
in place, or a fresh binding `("points", k)` is appended when absent. -/
def addToPoints (k : ℚ) : List (String × ℚ) → List (String × ℚ)
  | [] => [("points", k)]
  | (team, count) :: rest =>
    if team = "points" then (team, count + k) :: rest
    else (team, count) :: addToPoints k rest

/-! ### Tournament state and bracket propagation
(`src/api/services/tournament_service.py`) -/

/-- A rating record, `tourney_core.Team` as read by `read_ratings_file`. -/
structure Team where
  name : String
  offense : ℚ
  defense : ℚ
  tempo : ℚ

/-- A bracket slot: a dict from team name to probability of occupying the slot. -/
abbrev Slot := List (String × ℚ)

/-- The part of `tourney.TournamentState` that `compute_bracket_rounds` and
`compute_path_to_slot` read.  `ratings` models the `state.ratings` dict.
`winProb` is modelled from the spec: it stands for
`tourney.calculate_win_prob(t1, t2, state.overrides, state.forfeit_prob)`
(Rust `py_calculate_win_prob`, not in the repository sources), a pure
function of the two rating records with the state's override table and
forfeit probability baked in; the theorems hold for every such function. -/
structure TournamentState where
  bracket : List Slot
  ratings : String → Option Team
  winProb : Team → Team → ℚ

/-- One iteration of the inner pair loop of `compute_bracket_rounds`
(lines 238-253): team1/prob1 from the left child slot, `e2` from the right
child slot; contributions are skipped when either team lacks a rating. -/
def pairStep (st : TournamentState) (team1 : String) (prob1 : ℚ)
    (acc : Slot) (e2 : String × ℚ) : Slot :=
  match st.ratings team1, st.ratings e2.fst with
  | some t1, some t2 =>
    let winProb := st.winProb t1 t2
    let p1Wins := prob1 * e2.snd * winProb
    let p2Wins := prob1 * e2.snd * (1 - winProb)
    dictAdd (dictAdd acc team1 p1Wins) e2.fst p2Wins
  | _, _ => acc

/-- The `winner_probs` dict built for one next-round slot from the two child
slots `game1` and `game2` (`compute_bracket_rounds`, lines 236-255). -/
def combineSlot (st : TournamentState) (game1 game2 : Slot) : Slot :=
  game1.foldl (fun acc e1 => game2.foldl (pairStep st e1.fst e1.snd) acc) []

/-- The `for i in range(0, len(current_round), 2)` pairing loop producing
`next_round`.  The source indexes `current_round[i + 1]`, which is always
in range because the bracket length is a power of two. -/
def pairReduce (st : TournamentState) : List Slot → List Slot
  | g1 :: g2 :: rest => combineSlot st g1 g2 :: pairReduce st rest
  | _ => []

/-- Pairing halves the round length; stated among the definitions because
`propagateRounds`'s termination argument needs it. -/
theorem pairReduce_length (st : TournamentState) (l : List Slot) :
    (pairReduce st l).length = l.length / 2 := by
  match l with
  | [] => simp [pairReduce]
  | [g] => simp [pairReduce]
  | g1 :: g2 :: rest =>
    have ih := pairReduce_length st rest
    simp [pairReduce, ih]
    omega
termination_by l.length
decreasing_by simp; omega

/-- The `while len(current_round) > 1` loop of `compute_bracket_rounds`:
`rounds` starts as `[bracket]` and each iteration appends the paired-up
next round. -/
def propagateRounds (st : TournamentState) (current : List Slot) : List (List Slot) :=
  if 1 < current.length then current :: propagateRounds st (pairReduce st current)
  else [current]
termination_by current.length
decreasing_by rw [pairReduce_length]; omega

/-- `compute_bracket_rounds(state)` from
`src/api/services/tournament_service.py` (lines 219-260). -/
def computeBracketRounds (st : TournamentState) : List (List Slot) :=
  propagateRounds st st.bracket

/-- Every team named in the slot has a rating record in the state. -/
def ratedSlot (st : TournamentState) (slot : Slot) : Prop :=
  ∀ e ∈ slot, (st.ratings e.fst).isSome

/-- Win probability looked up by team name (0 when a rating is missing; the
claims only use it where both ratings exist). -/
def winProbByName (st : TournamentState) (t1 t2 : String) : ℚ :=
  match st.ratings t1, st.ratings t2 with
  | some r1, some r2 => st.winProb r1 r2
  | _, _ => 0

/-- The contribution of the ordered candidate pair `(e1, e2)` to team `X` of
the next slot, as the claim states it: `pT·pU·W(T,U)` to `T`'s entry and
`pT·pU·(1−W(T,U))` to `U`'s entry. -/
def pairContributionSpec (st : TournamentState) (X : String) (e1 e2 : String × ℚ) : ℚ :=
  (if e1.fst = X then e1.snd * e2.snd * winProbByName st e1.fst e2.fst else 0) +
  (if e2.fst = X then e1.snd * e2.snd * (1 - winProbByName st e1.fst e2.fst) else 0)

/-- The claim-side value of team `X`'s entry in the slot formed from child
slots `left` and `right`: the sum of the pairwise contributions. -/
def slotEntrySpec (st : TournamentState) (left right : Slot) (X : String) : ℚ :=
  (left.map (fun e1 => (right.map (fun e2 => pairContributionSpec st X e1 e2)).sum)).sum

/-- The combined slot invariant used for C2 and C3: every team appearing in
the slot has a rating record, and the slot's occupancy values sum to 1. -/
def massInvariant (st : TournamentState) (slot : Slot) : Prop :=
  ratedSlot st slot ∧ sumValues slot = 1

/-! ### What-if application (`apply_what_if`,
`src/api/services/tournament_service.py` lines 176-216)

A game outcome reaches `apply_what_if` either as an attribute-bearing object
(`hasattr(outcome, 'team1')` true) or as a dict; for a dict, the probability
is read with `outcome.get("probability", 1.0)`.  The team keys of a
dict-shaped outcome are modelled as present (the claims only exercise the
probability key).  The state operations `with_override` and
`with_team_adjustment` live in the Rust core, so `apply_what_if` is embedded
generically in the state type `S` and those two operations. -/

/-- The two shapes of a game outcome accepted by `apply_what_if`. -/
inductive GameOutcome where
  | obj (team1 team2 : String) (probability : ℚ)
  | dict (team1 team2 : String) (probability : Option ℚ)

/-- `outcome.team1` / `outcome.get("team1")`. -/
def GameOutcome.getTeam1 : GameOutcome → String
  | .obj t1 _ _ => t1
  | .dict t1 _ _ => t1

/-- `outcome.team2` / `outcome.get("team2")`. -/
def GameOutcome.getTeam2 : GameOutcome → String
  | .obj _ t2 _ => t2
  | .dict _ t2 _ => t2

/-- `outcome.probability` / `outcome.get("probability", 1.0)`. -/
def GameOutcome.getProb : GameOutcome → ℚ
  | .obj _ _ p => p
  | .dict _ _ p => p.getD 1

/-- `apply_what_if(state, game_outcomes, rating_adjustments, completed_games)`:
eliminated teams are the losers of the completed games; outcomes touching an
eliminated team are skipped, the rest are folded through `withOverride`, and
every rating adjustment is folded through `withTeamAdjustment`. -/
def applyWhatIf {S : Type} (withOverride : S → String → String → ℚ → S)
    (withTeamAdjustment : S → String → ℚ → S) (state : S)
    (gameOutcomes : List GameOutcome) (ratingAdjustments : List (String × ℚ))
    (completedGames : List (String × String)) : S :=
  let eliminated := completedGames.map Prod.snd
  let afterOutcomes := gameOutcomes.foldl
    (fun modified outcome =>
      let team1 := outcome.getTeam1
      let team2 := outcome.getTeam2
      let prob := outcome.getProb
      if team1 ∈ eliminated ∨ team2 ∈ eliminated then modified
      else withOverride modified team1 team2 prob)
    state
  ratingAdjustments.foldl
    (fun modified e => withTeamAdjustment modified e.fst e.snd) afterOutcomes

/-- The outcomes surviving the completed-game check: neither team is the
loser of a completed game. -/
def survivingOutcomes (gameOutcomes : List GameOutcome)
    (completedGames : List (String × String)) : List GameOutcome :=
  gameOutcomes.filter (fun outcome =>
    ¬ (outcome.getTeam1 ∈ completedGames.map Prod.snd ∨
       outcome.getTeam2 ∈ completedGames.map Prod.snd))

/-! ### Game importance (`src/api/services/portfolio_service.py` lines
296-346 and `src/api/routers/analysis.py` lines 89-118)

The batch scores come from the Rust `calculate_scores_prob_batch`; the result
list is a parameter `batchResults` here, ordered as the source builds the
scenarios: entries `2i` and `2i+1` are the team1-wins and team2-wins scores
of game `i`. -/

/-- One record of the `games` list built by `get_all_game_importance`. -/
structure GameImportanceEntry where
  team1 : String
  team2 : String
  roundNum : ℕ
  winProb : ℚ
  ifTeam1Wins : ℚ
  ifTeam2Wins : ℚ
  rawImportance : ℚ
  adjustedImportance : ℚ

/-- The body of the result loop of `get_all_game_importance` (lines 310-344)
for the game at enumerate-index `i`. -/
def gameImportanceEntry (st : TournamentState) (classes : List (List String))
    (positions : List (String × ℚ)) (currentEv : ℚ)
    (batchResults : List (List (String × ℚ))) (i : ℕ)
    (team1 team2 : String) (r : ℕ) : GameImportanceEntry :=
  let scoresT1Wins := (batchResults.get? (i * 2)).getD []
  let scoresT2Wins := (batchResults.get? (i * 2 + 1)).getD []
  let evT1Wins := getPortfolioValue classes positions scoresT1Wins
  let evT2Wins := getPortfolioValue classes positions scoresT2Wins
  let deltaT1 := evT1Wins - currentEv
  let deltaT2 := evT2Wins - currentEv
  let rawImportance := |deltaT1 - deltaT2|
  let winProb :=
    match st.ratings team1, st.ratings team2 with
    | some t1, some t2 => st.winProb t1 t2
    | _, _ => 1/2
  let adjustedImportance := |deltaT1| * winProb ^ 2 + |deltaT2| * (1 - winProb) ^ 2
  ⟨team1, team2, r, winProb, deltaT1, deltaT2, rawImportance, adjustedImportance⟩

/-- The `for i, (team1, team2, r) in enumerate(games_to_evaluate)` loop,
threading the enumerate index explicitly. -/
def processGameImportanceGames (st : TournamentState) (classes : List (List String))
    (positions : List (String × ℚ)) (currentEv : ℚ)
    (batchResults : List (List (String × ℚ))) :
    ℕ → List (String × String × ℕ) → List GameImportanceEntry
  | _, [] => []
  | i, (team1, team2, r) :: rest =>
    gameImportanceEntry st classes positions currentEv batchResults i team1 team2 r ::
      processGameImportanceGames st classes positions currentEv batchResults (i + 1) rest

/-- The fields of `get_game_delta`'s result dict
(`src/api/services/portfolio_service.py` lines 197-234) that the single-game
endpoint reads; `winValue` and `lossValue` come from the Rust
`pv.game_delta` and `currentValue` from the current expected scores. -/
structure GameDeltaResult where
  winProb : ℚ
  ifTeam1Wins : ℚ
  ifTeam2Wins : ℚ
  swing : ℚ

/-- `get_game_delta`'s deltas: `win_delta = win_value - current_value`,
`loss_delta = loss_value - current_value`, `swing = abs(win_delta - loss_delta)`. -/
def getGameDeltaSummary (winValue lossValue currentValue winProb : ℚ) : GameDeltaResult :=
  ⟨winProb, winValue - currentValue, lossValue - currentValue,
    |(winValue - currentValue) - (lossValue - currentValue)|⟩

/-- The inline adjusted-importance computation of the `get_game_impact`
endpoint (`src/api/routers/analysis.py` line 104). -/
def gameImpactAdjustedImportance (result : GameDeltaResult) : ℚ :=
  |result.ifTeam1Wins| * result.winProb ^ 2 +
    |result.ifTeam2Wins| * (1 - result.winProb) ^ 2

/-- The adjusted-importance formula exactly as the specification states it:
`|Δ⁺|·p² + |Δ⁻|·(1−p)²`. -/
def adjustedImportanceSpec (dPlus dMinus p : ℚ) : ℚ :=
  |dPlus| * p ^ 2 + |dMinus| * (1 - p) ^ 2

/-! ### Path to a slot (`compute_path_to_slot_with_rounds`,
`src/api/services/tournament_service.py` lines 277-378)

The round and position arrive from the API as Python ints and may be
negative, so they are embedded as `ℤ`; bracket indices are `ℕ`.  Python's
floor division of the non-negative `start_pos` by the positive
`2 ** target_round` coincides with `ℕ` division. -/

/-- The play-in handling of `compute_path_to_slot_with_rounds` (lines
318-325): when the team's starting slot holds two teams, the team must first
beat the other occupant. -/
def playInOutcomes (bracket : List Slot) (team : String) (startPos : ℕ) :
    List (String × String) :=
  match bracket.get? startPos with
  | some startingSlot =>
    if startingSlot.length = 2 ∧ isKey startingSlot team then
      match startingSlot.find? (fun e => ¬ e.fst = team) with
      | some e => [(team, e.fst)]
      | none => []
    else []
  | none => []

/-- The `for round_num in range(target_round)` loop (lines 329-361): each
iteration emits forced wins against every possible opponent in the mirror
slot, then halves the position; any guard failure breaks out, returning the
outcomes gathered so far. -/
def pathLoop (rounds : List (List Slot)) (team : String) :
    ℕ → ℕ → ℕ → List (String × String)
  | _, _, 0 => []
  | roundNum, currentPos, remaining + 1 =>
    match rounds.get? roundNum with
    | none => []
    | some roundSlots =>
      match roundSlots.get? currentPos with
      | none => []
      | some slot =>
        if isKey slot team then
          let opponentPos := if currentPos % 2 = 0 then currentPos + 1 else currentPos - 1
          match roundSlots.get? opponentPos with
          | none => []
          | some opponentSlot =>
            (opponentSlot.filterMap (fun e =>
              if e.fst = team then none else some (team, e.fst))) ++
              pathLoop rounds team (roundNum + 1) (currentPos / 2) remaining
        else []

/-- `compute_path_to_slot_with_rounds(state, rounds, team, target_round,
target_position)`. -/
def computePathToSlotWithRounds (st : TournamentState) (rounds : List (List Slot))
    (team : String) (targetRound targetPosition : ℤ) : List (String × String) :=
  match st.bracket.findIdx? (fun game => isKey game team) with
  | none => []
  | some startPos =>
    if targetRound < 0 then []
    else if (rounds.length : ℤ) ≤ targetRound then []
    else if ((startPos / 2 ^ targetRound.toNat : ℕ) : ℤ) ≠ targetPosition then []
    else
      playInOutcomes st.bracket team startPos ++
        pathLoop rounds team 0 startPos targetRound.toNat

/-- `compute_path_to_slot(state, team, target_round, target_position)`
(lines 366-378): computes the rounds and delegates. -/
def computePathToSlot (st : TournamentState) (team : String)
    (targetRound targetPosition : ℤ) : List (String × String) :=
  computePathToSlotWithRounds st (computeBracketRounds st) team
    targetRound targetPosition

/-! ### Slot candidates (`get_slot_candidates_with_deltas`,
`src/api/services/portfolio_service.py` lines 388-467)

The positions and the current expected scores are parameters (they come from
`get_positions` and the Rust `calculate_scores_prob`), and
`calcScoresProbBatch` is modelled from the spec: it stands for the Rust
`calculate_scores_prob_batch`, an order-preserving batch evaluation of
expected scores under override scenarios; the claim holds for every such
function.  Python's `sort(key=..., reverse=True)` is a stable descending
sort, embedded as a stable insertion sort on the probability key. -/

/-- One candidate record returned by `get_slot_candidates_with_deltas`. -/
structure SlotCandidate where
  team : String
  probability : ℚ
  portfolioDelta : ℚ

/-- `get_slot_candidates_with_deltas(portfolio_service, state, target_round,
target_position)`. -/
def getSlotCandidatesWithDeltas (classes : List (List String))
    (positions currentScores : List (String × ℚ))
    (calcScoresProbBatch : List (List (String × String × ℚ)) → List (List (String × ℚ)))
    (st : TournamentState) (targetRound targetPosition : ℕ) : List SlotCandidate :=
  let currentValue := getPortfolioValue classes positions currentScores
  let rounds := computeBracketRounds st
  match rounds.get? targetRound with
  | none => []
  | some roundSlots =>
    match roundSlots.get? targetPosition with
    | none => []
    | some slotTeams =>
      let candidatesInfo := slotTeams.filter (fun e => e.snd ≥ 1/1000)
      if candidatesInfo.isEmpty then []
      else
        let scenarios := candidatesInfo.map (fun e =>
          (computePathToSlotWithRounds st rounds e.fst targetRound targetPosition).map
            (fun wl => (wl.fst, wl.snd, (1 : ℚ))))
        let batchResults := calcScoresProbBatch scenarios
        let candidates := (candidatesInfo.zip batchResults).map
          (fun ce => (⟨ce.fst.fst, ce.fst.snd,
            if ce.snd.isEmpty then 0
            else getPortfolioValue classes positions ce.snd - currentValue⟩ : SlotCandidate))
        List.insertionSort (fun a b => a.probability ≥ b.probability) candidates

/-! ### Portfolio distribution (`get_portfolio_distribution`,
`src/api/services/portfolio_service.py` lines 107-184)

The per-simulation score maps come from the Rust `run_simulations` and the
expected scores from `calculate_scores_prob`; both are parameters.  The
bracket teams (Rust `get_bracket_teams`) are a parameter as well.  `values`
is sorted in place by `values.sort()`, a stable ascending sort, before the
percentile and histogram passes; with no simulations the source raises an
IndexError at `values[0]`, embedded as `none`. -/

/-- One histogram bin `{"bin_start": …, "bin_end": …, "count": …}`. -/
structure HistogramBin where
  binStart : ℚ
  binEnd : ℚ
  count : ℕ

/-- The summary dict returned by `get_portfolio_distribution`. -/
structure DistributionSummary where
  expectedValue : ℚ
  minValue : ℚ
  maxValue : ℚ
  p1 : ℚ
  p5 : ℚ
  p10 : ℚ
  p25 : ℚ
  p50 : ℚ
  p75 : ℚ
  p90 : ℚ
  p95 : ℚ
  p99 : ℚ
  histogram : List HistogramBin

/-- The inner `percentile(p)` helper: `values[min(int(p * n / 100), n - 1)]`
on the sorted list (`int` truncation of `p·n/100` is `ℕ` division for the
non-negative operands involved). -/
def percentileOf (sorted : List ℚ) (n p : ℕ) : ℚ :=
  sorted.getD (min (p * n / 100) (n - 1)) 0

/-- The `values` list of `get_portfolio_distribution` (lines 125-139): the
per-simulation portfolio values over the positions filtered to bracket teams
and the `"points"` entry. -/
def distributionValues (classes : List (List String)) (positions : List (String × ℚ))
    (bracketTeams : List String) (simResults : List (List (String × ℚ))) : List ℚ :=
  simResults.map (fun simScores =>
    getPortfolioValue classes
      (positions.filter (fun e => e.fst ∈ bracketTeams ∨ e.fst = "points")) simScores)

/-- `get_portfolio_distribution(n_simulations, seed, n_bins)` after the
simulations have run. -/
def getPortfolioDistribution (classes : List (List String))
    (positions : List (String × ℚ)) (bracketTeams : List String)
    (simResults : List (List (String × ℚ))) (expectedScores : List (String × ℚ))
    (nBins : ℕ) : Option DistributionSummary :=
  let filteredPositions := positions.filter
    (fun e => e.fst ∈ bracketTeams ∨ e.fst = "points")
  match List.insertionSort (· ≤ ·)
      (distributionValues classes positions bracketTeams simResults) with
  | [] => none
  | v0 :: rest =>
    let sorted := v0 :: rest
    let n := sorted.length
    let minVal := v0
    let maxVal := sorted.getLast (List.cons_ne_nil v0 rest)
    let binWidth := if maxVal > minVal then (maxVal - minVal) / nBins else 1
    let histogram := (List.range nBins).map (fun (i : ℕ) =>
      let binStart := minVal + (i : ℚ) * binWidth
      let binEnd := minVal + ((i : ℚ) + 1) * binWidth
      let baseCount := (sorted.filter (fun v => binStart ≤ v ∧ v < binEnd)).length
      (⟨binStart, binEnd,
        if i = nBins - 1 then
          baseCount + (sorted.filter (fun v => v = maxVal)).length
        else baseCount⟩ : HistogramBin))
    some ⟨getPortfolioValue classes filteredPositions expectedScores,
      minVal, maxVal,
      percentileOf sorted n 1, percentileOf sorted n 5,
      percentileOf sorted n 10, percentileOf sorted n 25,
      percentileOf sorted n 50, percentileOf sorted n 75,
      percentileOf sorted n 90, percentileOf sorted n 95,
      percentileOf sorted n 99, histogram⟩

/-! ### Adding a completed game (`src/api/routers/tournament.py` lines
249-277 and `src/api/database.py` lines 129-141)

The completed-games store is the list of `(winner, loser)` rows in insertion
order.  The router validates against the bracket teams (the Rust
`state.get_bracket_teams()`, passed as a parameter) and against the service's
`completed_games`, which is loaded from the same store. -/

/-- Result of the add-completed-game request: success or an HTTP 400. -/
inductive AddGameResult where
  | ok
  | badRequest (detail : String)

/-- `db.add_completed_game(winner, loser)`: an INSERT guarded by the
`UNIQUE(winner, loser)` constraint; an `IntegrityError` returns `False` and
leaves the table unchanged. -/
def dbAddCompletedGame (store : List (String × String)) (winner loser : String) :
    Bool × List (String × String) :=
  if (winner, loser) ∈ store then (false, store)
  else (true, store ++ [(winner, loser)])

/-- The `add_completed_game` route handler: both teams must be bracket teams,
the winner must not already be eliminated (a loser of a stored game), and the
database insert must not collide; any failure returns a 400 and leaves the
store unchanged. -/
def routerAddCompletedGame (bracketTeams : List String)
    (completedGames : List (String × String)) (winner loser : String) :
    AddGameResult × List (String × String) :=
  if winner ∉ bracketTeams then
    (.badRequest "Team not in tournament", completedGames)
  else if loser ∉ bracketTeams then
    (.badRequest "Team not in tournament", completedGames)
  else if winner ∈ completedGames.map Prod.snd then
    (.badRequest "Team already eliminated", completedGames)
  else
    let result := dbAddCompletedGame completedGames winner loser
    if result.fst = false then (.badRequest "Game already recorded", completedGames)
    else (.ok, result.snd)

/-- A concrete two-team tournament state used to exercise the propagation
theorems: a two-slot bracket, a total ratings table, and an even
win-probability model. -/
def stW : TournamentState where
  bracket := [[("A", 1)], [("B", 1)]]
  ratings := fun _ => some ⟨"T", 0, 0, 1⟩
  winProb := fun _ _ => 1/2

/-! ### Theorems -/

theorem dictGet_nil (k : String) (default : ℚ) : dictGet [] k default = default := rfl

theorem dictGet_cons (e : String × ℚ) (rest : List (String × ℚ)) (k : String)
    (default : ℚ) :
    dictGet (e :: rest) k default = if e.fst = k then e.snd else dictGet rest k default := by
  by_cases h : e.fst = k <;> simp [dictGet, List.find?, h]

theorem dictGet_dictSet (d : List (String × ℚ)) (k : String) (v : ℚ) (x : String)
    (default : ℚ) :
    dictGet (dictSet d k v) x default = if k = x then v else dictGet d x default := by
  induction d with
  | nil =>
    by_cases hxk : k = x <;> simp [dictSet, dictGet_cons, dictGet_nil, hxk]
  | cons e rest ih =>
    by_cases hek : e.fst = k
    · simp only [dictSet, if_pos hek]
      by_cases hkx : k = x
      · simp [dictGet_cons, hkx]
      · have hex : ¬ e.fst = x := fun h => hkx (hek.symm.trans h)
        simp [dictGet_cons, hkx, hex]
    · simp only [dictSet, if_neg hek]
      by_cases hex : e.fst = x
      · have hkx : ¬ k = x := fun h => hek (hex.trans h.symm)
        simp [dictGet_cons, hex, hkx]
      · simp [dictGet_cons, hex, ih]

theorem dictGet_dictAdd (d : List (String × ℚ)) (k : String) (p : ℚ) (x : String) :
    dictGet (dictAdd d k p) x 0 = dictGet d x 0 + if k = x then p else 0 := by
  unfold dictAdd
  rw [dictGet_dictSet]
  by_cases hxk : k = x
  · simp [hxk]
  · simp [hxk]

theorem dictGet_eq_zero_of_not_isKey (d : List (String × ℚ)) (k : String)
    (hk : isKey d k = false) : dictGet d k 0 = 0 := by
  unfold dictGet
  unfold isKey at hk
  cases hfind : List.find? (fun e => e.fst = k) d with
  | none => simp
  | some e => simp [hfind] at hk

theorem sumValues_cons (e : String × ℚ) (rest : List (String × ℚ)) :
    sumValues (e :: rest) = e.snd + sumValues rest := by
  simp [sumValues]

theorem sumValues_dictSet_key (d : List (String × ℚ)) (k : String) (v : ℚ)
    (hk : isKey d k = true) :
    sumValues (dictSet d k v) = sumValues d - dictGet d k 0 + v := by
  induction d with
  | nil => simp [isKey, List.find?] at hk
  | cons e rest ih =>
    by_cases hek : e.fst = k
    · simp only [dictSet, if_pos hek]
      rw [sumValues_cons, sumValues_cons, dictGet_cons, if_pos hek]
      ring
    · have hk' : isKey rest k = true := by
        simpa [isKey, List.find?, hek] using hk
      simp only [dictSet, if_neg hek]
      rw [sumValues_cons, sumValues_cons, ih hk', dictGet_cons, if_neg hek]
      ring

theorem sumValues_dictSet_new (d : List (String × ℚ)) (k : String) (v : ℚ)
    (hk : isKey d k = false) :
    sumValues (dictSet d k v) = sumValues d + v := by
  induction d with
  | nil => simp [dictSet, sumValues]
  | cons e rest ih =>
    by_cases hek : e.fst = k
    · simp [isKey, List.find?, hek] at hk
    · have hk' : isKey rest k = false := by
        simpa [isKey, List.find?, hek] using hk
      simp only [dictSet, if_neg hek]
      rw [sumValues_cons, sumValues_cons, ih hk']
      ring

theorem sumValues_dictAdd (d : List (String × ℚ)) (k : String) (p : ℚ) :
    sumValues (dictAdd d k p) = sumValues d + p := by
  unfold dictAdd
  cases hk : isKey d k with
  | true => rw [sumValues_dictSet_key d k _ hk]; ring
  | false =>
    rw [sumValues_dictSet_new d k _ hk, dictGet_eq_zero_of_not_isKey d k hk]
    ring

theorem keys_dictSet (d : List (String × ℚ)) (k : String) (v : ℚ) (x : String)
    (hx : x ∈ (dictSet d k v).map Prod.fst) : x = k ∨ x ∈ d.map Prod.fst := by
  induction d with
  | nil => simp [dictSet] at hx; simp [hx]
  | cons e rest ih =>
    by_cases hek : e.fst = k
    · simp only [dictSet, if_pos hek] at hx
      rcases List.mem_map.mp hx with ⟨p, hp, hpx⟩
      rcases List.mem_cons.mp hp with h | h
      · left; rw [← hpx, h]
      · right; exact List.mem_map.mpr ⟨p, List.mem_cons_of_mem _ h, hpx⟩
    · simp only [dictSet, if_neg hek] at hx
      rcases List.mem_map.mp hx with ⟨p, hp, hpx⟩
      rcases List.mem_cons.mp hp with h | h
      · right; exact List.mem_map.mpr ⟨p, h ▸ List.mem_cons_self _ _, hpx⟩
      · rcases ih (List.mem_map.mpr ⟨p, h, hpx⟩) with h1 | h1
        · left; exact h1
        · right
          rcases List.mem_map.mp h1 with ⟨q, hq, hqx⟩
          exact List.mem_map.mpr ⟨q, List.mem_cons_of_mem _ hq, hqx⟩

theorem keys_dictAdd (d : List (String × ℚ)) (k : String) (p : ℚ) (x : String)
    (hx : x ∈ (dictAdd d k p).map Prod.fst) : x = k ∨ x ∈ d.map Prod.fst :=
  keys_dictSet d k _ x hx

theorem getPortfolioValueGo_total_add (classes : List (List String))
    (values : List (String × ℚ)) (ps : List (String × ℚ)) (k : ℚ) :
    ∀ total acc, getPortfolioValueGo classes values ps (total + k) acc =
      getPortfolioValueGo classes values ps total acc + k := by
  induction ps with
  | nil => intro total acc; simp [getPortfolioValueGo]; ring
  | cons e rest ih =>
    intro total acc
    obtain ⟨team, count⟩ := e
    by_cases hc : count = 0
    · simp only [getPortfolioValueGo, if_pos hc]
      exact ih total acc
    · by_cases ht : team = "points"
      · simp only [getPortfolioValueGo, if_neg hc, if_pos ht]
        rw [show total + k + count = total + count + k by ring]
        exact ih (total + count) acc
      · simp only [getPortfolioValueGo, if_neg hc, if_neg ht]
        exact ih total _

theorem getPortfolioValueGo_cons_points (classes : List (List String))
    (values : List (String × ℚ)) (count : ℚ) (rest : List (String × ℚ))
    (total : ℚ) (acc : List (String × ℚ)) :
    getPortfolioValueGo classes values (("points", count) :: rest) total acc =
      getPortfolioValueGo classes values rest (total + count) acc := by
  by_cases hc : count = 0
  · simp [getPortfolioValueGo, hc]
  · simp [getPortfolioValueGo, hc]

theorem getPortfolioValueGo_cons_team (classes : List (List String))
    (values : List (String × ℚ)) (team : String) (count : ℚ)
    (rest : List (String × ℚ)) (total : ℚ) (acc : List (String × ℚ))
    (ht : ¬ team = "points") (hc : ¬ count = 0) :
    getPortfolioValueGo classes values ((team, count) :: rest) total acc =
      getPortfolioValueGo classes values rest total
        (dictSet acc (tryResolveName classes team values) count) := by
  simp [getPortfolioValueGo, ht, hc]

theorem getPortfolioValueGo_cons_zero (classes : List (List String))
    (values : List (String × ℚ)) (team : String) (count : ℚ)
    (rest : List (String × ℚ)) (total : ℚ) (acc : List (String × ℚ))
    (hc : count = 0) :
    getPortfolioValueGo classes values ((team, count) :: rest) total acc =
      getPortfolioValueGo classes values rest total acc := by
  simp [getPortfolioValueGo, hc]

theorem getPortfolioValueGo_addToPoints (classes : List (List String))
    (values : List (String × ℚ)) (k : ℚ) (ps : List (String × ℚ)) :
    ∀ total acc, getPortfolioValueGo classes values (addToPoints k ps) total acc =
      getPortfolioValueGo classes values ps total acc + k := by
  induction ps with
  | nil =>
    intro total acc
    show getPortfolioValueGo classes values [("points", k)] total acc = _
    rw [getPortfolioValueGo_cons_points, getPortfolioValueGo_total_add]
  | cons e rest ih =>
    intro total acc
    obtain ⟨team, count⟩ := e
    by_cases ht : team = "points"
    · subst ht
      show getPortfolioValueGo classes values (("points", count + k) :: rest) total acc = _
      rw [getPortfolioValueGo_cons_points, getPortfolioValueGo_cons_points,
        show total + (count + k) = total + count + k by ring,
        getPortfolioValueGo_total_add]
    · simp only [addToPoints, if_neg ht]
      by_cases hc : count = 0
      · rw [getPortfolioValueGo_cons_zero _ _ _ _ _ _ _ hc,
          getPortfolioValueGo_cons_zero _ _ _ _ _ _ _ hc]
        exact ih total acc
      · rw [getPortfolioValueGo_cons_team _ _ _ _ _ _ _ ht hc,
          getPortfolioValueGo_cons_team _ _ _ _ _ _ _ ht hc]
        exact ih total _

/-- Claim C1: for every positions map, every scores map, and every rational
`k`, adding `k` to the quantity stored under the distinguished cash key
(`"points"`) of the positions map changes `get_portfolio_value(positions,
scores)` by exactly `k`: the cash quantity is added directly to the total,
with no multiplication by any score and no team-name resolution. -/
theorem get_portfolio_value_cash_neutral (classes : List (List String))
    (positions values : List (String × ℚ)) (k : ℚ) :
    getPortfolioValue classes (addToPoints k positions) values =
      getPortfolioValue classes positions values + k := by
  unfold getPortfolioValue
  exact getPortfolioValueGo_addToPoints classes values k positions 0 []

theorem dictGet_foldl_pairStep (st : TournamentState) (team1 : String) (prob1 : ℚ)
    (g2 : Slot) (h1 : (st.ratings team1).isSome = true) (h2 : ratedSlot st g2) :
    ∀ acc X, dictGet (g2.foldl (pairStep st team1 prob1) acc) X 0 =
      dictGet acc X 0 +
        (g2.map (fun e2 => pairContributionSpec st X (team1, prob1) e2)).sum := by
  induction g2 with
  | nil => intro acc X; simp
  | cons e2 rest ih =>
    intro acc X
    obtain ⟨r1, hr1⟩ := Option.isSome_iff_exists.mp h1
    obtain ⟨r2, hr2⟩ := Option.isSome_iff_exists.mp
      (h2 e2 (List.mem_cons_self _ _))
    have hrest : ratedSlot st rest := fun e he => h2 e (List.mem_cons_of_mem _ he)
    rw [List.foldl_cons, ih hrest]
    have hstep : pairStep st team1 prob1 acc e2 =
        dictAdd (dictAdd acc team1 (prob1 * e2.snd * st.winProb r1 r2))
          e2.fst (prob1 * e2.snd * (1 - st.winProb r1 r2)) := by
      unfold pairStep
      rw [hr1, hr2]
    rw [hstep, dictGet_dictAdd, dictGet_dictAdd]
    have hw : winProbByName st team1 e2.fst = st.winProb r1 r2 := by
      unfold winProbByName
      rw [hr1, hr2]
    simp only [List.map_cons, List.sum_cons, pairContributionSpec, hw]
    ring

theorem dictGet_combineSlot_aux (st : TournamentState) (g1 g2 : Slot)
    (h1 : ratedSlot st g1) (h2 : ratedSlot st g2) :
    ∀ acc X, dictGet (g1.foldl (fun acc e1 => g2.foldl (pairStep st e1.fst e1.snd) acc) acc) X 0 =
      dictGet acc X 0 + slotEntrySpec st g1 g2 X := by
  induction g1 with
  | nil => intro acc X; simp [slotEntrySpec]
  | cons e1 rest ih =>
    intro acc X
    have he1 : (st.ratings e1.fst).isSome = true := h1 e1 (List.mem_cons_self _ _)
    have hrest : ratedSlot st rest := fun e he => h1 e (List.mem_cons_of_mem _ he)
    rw [List.foldl_cons, ih hrest, dictGet_foldl_pairStep st e1.fst e1.snd g2 he1 h2]
    simp only [slotEntrySpec, List.map_cons, List.sum_cons]
    ring

theorem dictGet_combineSlot (st : TournamentState) (g1 g2 : Slot)
    (h1 : ratedSlot st g1) (h2 : ratedSlot st g2) (X : String) :
    dictGet (combineSlot st g1 g2) X 0 = slotEntrySpec st g1 g2 X := by
  unfold combineSlot
  rw [dictGet_combineSlot_aux st g1 g2 h1 h2 [] X, dictGet_nil]
  ring

theorem sumValues_foldl_pairStep (st : TournamentState) (team1 : String) (prob1 : ℚ)
    (g2 : Slot) (h1 : (st.ratings team1).isSome = true) (h2 : ratedSlot st g2) :
    ∀ acc, sumValues (g2.foldl (pairStep st team1 prob1) acc) =
      sumValues acc + prob1 * sumValues g2 := by
  induction g2 with
  | nil => intro acc; simp [sumValues]
  | cons e2 rest ih =>
    intro acc
    obtain ⟨r1, hr1⟩ := Option.isSome_iff_exists.mp h1
    obtain ⟨r2, hr2⟩ := Option.isSome_iff_exists.mp (h2 e2 (List.mem_cons_self _ _))
    have hrest : ratedSlot st rest := fun e he => h2 e (List.mem_cons_of_mem _ he)
    rw [List.foldl_cons, ih hrest]
    have hstep : pairStep st team1 prob1 acc e2 =
        dictAdd (dictAdd acc team1 (prob1 * e2.snd * st.winProb r1 r2))
          e2.fst (prob1 * e2.snd * (1 - st.winProb r1 r2)) := by
      unfold pairStep
      rw [hr1, hr2]
    rw [hstep, sumValues_dictAdd, sumValues_dictAdd, sumValues_cons]
    ring

theorem sumValues_combineSlot_aux (st : TournamentState) (g1 g2 : Slot)
    (h1 : ratedSlot st g1) (h2 : ratedSlot st g2) :
    ∀ acc, sumValues (g1.foldl (fun acc e1 => g2.foldl (pairStep st e1.fst e1.snd) acc) acc) =
      sumValues acc + sumValues g1 * sumValues g2 := by
  induction g1 with
  | nil => intro acc; simp [sumValues]
  | cons e1 rest ih =>
    intro acc
    have he1 : (st.ratings e1.fst).isSome = true := h1 e1 (List.mem_cons_self _ _)
    have hrest : ratedSlot st rest := fun e he => h1 e (List.mem_cons_of_mem _ he)
    rw [List.foldl_cons, ih hrest, sumValues_foldl_pairStep st e1.fst e1.snd g2 he1 h2,
      sumValues_cons]
    ring

theorem sumValues_combineSlot (st : TournamentState) (g1 g2 : Slot)
    (h1 : ratedSlot st g1) (h2 : ratedSlot st g2) :
    sumValues (combineSlot st g1 g2) = sumValues g1 * sumValues g2 := by
  unfold combineSlot
  rw [sumValues_combineSlot_aux st g1 g2 h1 h2 [], sumValues]
  simp

theorem keys_foldl_pairStep (st : TournamentState) (team1 : String) (prob1 : ℚ)
    (g2 : Slot) :
    ∀ acc x, x ∈ ((g2.foldl (pairStep st team1 prob1) acc).map Prod.fst) →
      x ∈ acc.map Prod.fst ∨ x = team1 ∨ x ∈ g2.map Prod.fst := by
  induction g2 with
  | nil => intro acc x hx; left; simpa using hx
  | cons e2 rest ih =>
    intro acc x hx
    rw [List.foldl_cons] at hx
    rcases ih (pairStep st team1 prob1 acc e2) x hx with h | h | h
    · unfold pairStep at h
      cases hr1 : st.ratings team1 with
      | none => rw [hr1] at h; left; exact h
      | some r1 =>
        cases hr2 : st.ratings e2.fst with
        | none => rw [hr1, hr2] at h; left; exact h
        | some r2 =>
          rw [hr1, hr2] at h
          simp only at h
          rcases keys_dictAdd _ _ _ _ h with h1 | h1
          · right; right; exact List.mem_map.mpr ⟨e2, List.mem_cons_self _ _, h1.symm ▸ rfl⟩
          · rcases keys_dictAdd _ _ _ _ h1 with h2 | h2
            · right; left; exact h2
            · left; exact h2
    · right; left; exact h
    · right; right
      rcases List.mem_map.mp h with ⟨e, he, hex⟩
      exact List.mem_map.mpr ⟨e, List.mem_cons_of_mem _ he, hex⟩

theorem keys_combineSlot_aux (st : TournamentState) (g2 : Slot) :
    ∀ (g1 : Slot) (acc : Slot) (x : String),
      x ∈ ((g1.foldl (fun acc e1 => g2.foldl (pairStep st e1.fst e1.snd) acc) acc).map Prod.fst) →
      x ∈ acc.map Prod.fst ∨ x ∈ g1.map Prod.fst ∨ x ∈ g2.map Prod.fst := by
  intro g1
  induction g1 with
  | nil => intro acc x hx; left; simpa using hx
  | cons e1 rest ih =>
    intro acc x hx
    rw [List.foldl_cons] at hx
    rcases ih _ x hx with h | h | h
    · rcases keys_foldl_pairStep st e1.fst e1.snd g2 acc x h with h1 | h1 | h1
      · left; exact h1
      · right; left
        exact List.mem_map.mpr ⟨e1, List.mem_cons_self _ _, h1.symm⟩
      · right; right; exact h1
    · right; left
      rcases List.mem_map.mp h with ⟨e, he, hex⟩
      exact List.mem_map.mpr ⟨e, List.mem_cons_of_mem _ he, hex⟩
    · right; right; exact h

theorem ratedSlot_combineSlot (st : TournamentState) (g1 g2 : Slot)
    (h1 : ratedSlot st g1) (h2 : ratedSlot st g2) :
    ratedSlot st (combineSlot st g1 g2) := by
  intro e he
  have hx : e.fst ∈ (combineSlot st g1 g2).map Prod.fst :=
    List.mem_map.mpr ⟨e, he, rfl⟩
  rcases keys_combineSlot_aux st g2 g1 [] e.fst hx with h | h | h
  · simp at h
  · rcases List.mem_map.mp h with ⟨e', he', hfst⟩
    exact hfst ▸ h1 e' he'
  · rcases List.mem_map.mp h with ⟨e', he', hfst⟩
    exact hfst ▸ h2 e' he'

theorem propagateRounds_get_zero (st : TournamentState) (c : List Slot) :
    (propagateRounds st c).get? 0 = some c := by
  rw [propagateRounds]
  split <;> simp

theorem propagateRounds_get_succ (st : TournamentState) (c : List Slot) :
    ∀ (r : ℕ) (prev next : List Slot),
      (propagateRounds st c).get? r = some prev →
      (propagateRounds st c).get? (r + 1) = some next →
      next = pairReduce st prev := by
  intro r prev next h1 h2
  rw [propagateRounds] at h1 h2
  by_cases hlen : 1 < c.length
  · rw [if_pos hlen] at h1 h2
    cases r with
    | zero =>
      have hc : prev = c := by
        have := h1
        simp at this
        exact this.symm
      have : (propagateRounds st (pairReduce st c)).get? 0 = some next := by
        simpa using h2
      rw [propagateRounds_get_zero] at this
      subst hc
      exact (Option.some_inj.mp this).symm
    | succ r' =>
      have h1' : (propagateRounds st (pairReduce st c)).get? r' = some prev := by
        simpa using h1
      have h2' : (propagateRounds st (pairReduce st c)).get? (r' + 1) = some next := by
        simpa using h2
      exact propagateRounds_get_succ st (pairReduce st c) r' prev next h1' h2'
  · rw [if_neg hlen] at h2
    simp at h2
termination_by c.length
decreasing_by rw [pairReduce_length]; omega

theorem pairReduce_pres (st : TournamentState) (Q : Slot → Prop)
    (hQ : ∀ g1 g2, Q g1 → Q g2 → Q (combineSlot st g1 g2)) (c : List Slot) :
    (∀ s ∈ c, Q s) → ∀ s ∈ pairReduce st c, Q s := by
  match c with
  | [] => intro _ s hs; simp [pairReduce] at hs
  | [g] => intro _ s hs; simp [pairReduce] at hs
  | g1 :: g2 :: rest =>
    intro hc s hs
    rw [pairReduce] at hs
    rcases List.mem_cons.mp hs with h | h
    · exact h ▸ hQ g1 g2 (hc g1 (by simp)) (hc g2 (by simp))
    · exact pairReduce_pres st Q hQ rest (fun s hs => hc s (by simp [hs])) s h
termination_by c.length
decreasing_by simp; omega

theorem propagateRounds_inv (st : TournamentState) (Q : Slot → Prop)
    (hQ : ∀ g1 g2, Q g1 → Q g2 → Q (combineSlot st g1 g2)) (c : List Slot) :
    (∀ s ∈ c, Q s) → ∀ rl ∈ propagateRounds st c, ∀ s ∈ rl, Q s := by
  intro hc rl hrl s hs
  rw [propagateRounds] at hrl
  by_cases hlen : 1 < c.length
  · rw [if_pos hlen] at hrl
    rcases List.mem_cons.mp hrl with h | h
    · exact (h ▸ hc) s hs
    · exact propagateRounds_inv st Q hQ (pairReduce st c)
        (pairReduce_pres st Q hQ c hc) rl h s hs
  · rw [if_neg hlen] at hrl
    simp at hrl
    subst hrl
    exact hc s hs
termination_by c.length
decreasing_by rw [pairReduce_length]; omega

theorem pairReduce_get (st : TournamentState) (l : List Slot) :
    ∀ (i : ℕ) (a b : Slot), l.get? (2 * i) = some a → l.get? (2 * i + 1) = some b →
      (pairReduce st l).get? i = some (combineSlot st a b) := by
  match l with
  | [] => intro i a b h1 _; simp at h1
  | [g] =>
    intro i a b _ h2
    cases i with
    | zero => simp at h2
    | succ i' =>
      rw [show 2 * (i' + 1) + 1 = (2 * i' + 2) + 1 by ring] at h2
      simp at h2
  | g1 :: g2 :: rest =>
    intro i a b h1 h2
    cases i with
    | zero =>
      simp at h1 h2
      subst h1
      subst h2
      simp [pairReduce]
    | succ i' =>
      have h1' : rest.get? (2 * i') = some a := by
        rw [show 2 * (i' + 1) = (2 * i' + 1) + 1 by ring] at h1
        simpa using h1
      have h2' : rest.get? (2 * i' + 1) = some b := by
        rw [show 2 * (i' + 1) + 1 = (2 * i' + 1 + 1) + 1 by ring] at h2
        simpa using h2
      rw [pairReduce]
      simpa using pairReduce_get st rest i' a b h1' h2'
termination_by l.length
decreasing_by simp; omega

theorem massInvariant_combineSlot (st : TournamentState) (g1 g2 : Slot)
    (h1 : massInvariant st g1) (h2 : massInvariant st g2) :
    massInvariant st (combineSlot st g1 g2) := by
  refine ⟨ratedSlot_combineSlot st g1 g2 h1.1 h2.1, ?_⟩
  rw [sumValues_combineSlot st g1 g2 h1.1 h2.1, h1.2, h2.2]
  norm_num

/-- Every slot of every round produced by `compute_bracket_rounds` has only
rated teams, when the first-round bracket does. -/
theorem ratedSlot_rounds (st : TournamentState)
    (hr : ∀ slot ∈ st.bracket, ratedSlot st slot) :
    ∀ rl ∈ computeBracketRounds st, ∀ s ∈ rl, ratedSlot st s :=
  propagateRounds_inv st (ratedSlot st)
    (fun g1 g2 => ratedSlot_combineSlot st g1 g2) st.bracket hr

theorem stW_rounds : computeBracketRounds stW =
    [[[("A", 1)], [("B", 1)]], [[("A", 1/2), ("B", 1/2)]]] := by
  rw [computeBracketRounds, propagateRounds, propagateRounds]
  simp [stW, pairReduce, combineSlot, pairStep, dictAdd, dictSet, dictGet]
  norm_num

/-- Claim C2: for every tournament state whose bracket teams all have rating
records, `compute_bracket_rounds` returns a sequence of rounds in which, for
each round `r ≥ 1`, the slot at position `i` is formed from slots `2i` and
`2i+1` of round `r − 1`, and the entry of every team `X` of the new slot map
is the sum, over all pairs of a team `T` (probability `pT`) of the left slot
and a team `U` (probability `pU`) of the right slot, of
`pT·pU·WinProbability(T,U)` when `X = T` plus `pT·pU·(1 − WinProbability(T,U))`
when `X = U`. -/
theorem compute_bracket_rounds_pairwise_propagation (st : TournamentState)
    (hr : ∀ slot ∈ st.bracket, ∀ e ∈ slot, (st.ratings e.fst).isSome = true)
    (r i : ℕ) (prev next : List Slot) (left right : Slot)
    (hprev : (computeBracketRounds st).get? r = some prev)
    (hnext : (computeBracketRounds st).get? (r + 1) = some next)
    (hleft : prev.get? (2 * i) = some left)
    (hright : prev.get? (2 * i + 1) = some right) :
    next.get? i = some (combineSlot st left right) ∧
    ∀ X, dictGet (combineSlot st left right) X 0 = slotEntrySpec st left right X := by
  have hprevmem : prev ∈ computeBracketRounds st := List.get?_mem hprev
  have hrated := ratedSlot_rounds st hr
  have hl : ratedSlot st left := hrated prev hprevmem left (List.get?_mem hleft)
  have hrt : ratedSlot st right := hrated prev hprevmem right (List.get?_mem hright)
  constructor
  · have hnexteq : next = pairReduce st prev :=
      propagateRounds_get_succ st st.bracket r prev next hprev hnext
    rw [hnexteq]
    exact pairReduce_get st prev i left right hleft hright
  · intro X
    exact dictGet_combineSlot st left right hl hrt X

/-- Witness for C2 on the concrete state `stW`, round 1 slot 0. -/
theorem compute_bracket_rounds_pairwise_propagation_witness :
    ([[("A", (1:ℚ)/2), ("B", 1/2)]] : List Slot).get? 0 =
      some (combineSlot stW [("A", 1)] [("B", 1)]) ∧
    ∀ X, dictGet (combineSlot stW [("A", 1)] [("B", 1)]) X 0 =
      slotEntrySpec stW [("A", 1)] [("B", 1)] X :=
  compute_bracket_rounds_pairwise_propagation stW
    (fun _ _ _ _ => rfl) 0 0
    [[("A", 1)], [("B", 1)]] [[("A", 1/2), ("B", 1/2)]]
    [("A", 1)] [("B", 1)]
    (by rw [stW_rounds]; rfl) (by rw [stW_rounds]; rfl) rfl rfl

/-- Claim C3: for every tournament state in which each team appearing in any
bracket slot has a rating record, with a win-probability model satisfying
`W(T,U) + W(U,T) = 1`, and with each first-round slot's occupancy values
summing to 1 (a bracket invariant), every slot-occupancy map of every round
produced by `compute_bracket_rounds` has values summing to 1 within `1e-9`. -/
theorem compute_bracket_rounds_mass_conservation (st : TournamentState)
    (hr : ∀ slot ∈ st.bracket, ∀ e ∈ slot, (st.ratings e.fst).isSome = true)
    (hsym : ∀ t1 t2 : Team, st.winProb t1 t2 + st.winProb t2 t1 = 1)
    (hmass : ∀ slot ∈ st.bracket, sumValues slot = 1) :
    ∀ rl ∈ computeBracketRounds st, ∀ slot ∈ rl,
      |sumValues slot - 1| ≤ 1 / 1000000000 := by
  have hinv := propagateRounds_inv st (massInvariant st)
    (fun g1 g2 => massInvariant_combineSlot st g1 g2) st.bracket
    (fun s hs => ⟨hr s hs, hmass s hs⟩)
  intro rl hrl slot hslot
  rw [(hinv rl hrl slot hslot).2]
  norm_num

/-- Witness for C3 on the concrete state `stW`: the round-1 slot's mass. -/
theorem compute_bracket_rounds_mass_conservation_witness :
    |sumValues [("A", (1:ℚ)/2), ("B", 1/2)] - 1| ≤ 1 / 1000000000 :=
  compute_bracket_rounds_mass_conservation stW
    (fun _ _ _ _ => rfl)
    (fun _ _ => by norm_num [stW])
    (by
      intro s hs
      simp [stW] at hs
      rcases hs with h | h <;> subst h <;> norm_num [sumValues])
    [[("A", 1/2), ("B", 1/2)]] (by rw [stW_rounds]; simp)
    [("A", 1/2), ("B", 1/2)] (by simp)

theorem foldl_congr_middle {α β : Type} (f : β → α → β) (pre post : List α) (a a' : α)
    (h : ∀ b, f b a = f b a') :
    ∀ b, (pre ++ [a] ++ post).foldl f b = (pre ++ [a'] ++ post).foldl f b := by
  induction pre with
  | nil =>
    intro b
    simp only [List.singleton_append, List.nil_append, List.foldl_cons]
    rw [h b]
  | cons q qs ih =>
    intro b
    simp only [List.cons_append, List.foldl_cons]
    exact ih _

/-- Claim C4: for every base state, outcome list, rating-adjustment list, and
completed-game list, `apply_what_if` silently skips every outcome whose team1
or team2 is the loser of a completed game, applies every other outcome via
`with_override`, and applies every rating adjustment unconditionally: the
result equals the state built from the outcome list with eliminated-team
outcomes removed (and no completed games). -/
theorem apply_what_if_drops_eliminated {S : Type}
    (withOverride : S → String → String → ℚ → S)
    (withTeamAdjustment : S → String → ℚ → S) (state : S)
    (gameOutcomes : List GameOutcome) (ratingAdjustments : List (String × ℚ))
    (completedGames : List (String × String)) :
    applyWhatIf withOverride withTeamAdjustment state gameOutcomes
        ratingAdjustments completedGames =
      applyWhatIf withOverride withTeamAdjustment state
        (survivingOutcomes gameOutcomes completedGames) ratingAdjustments [] := by
  unfold applyWhatIf
  simp only []
  congr 1
  induction gameOutcomes generalizing state with
  | nil => simp [survivingOutcomes]
  | cons o rest ih =>
    by_cases h : o.getTeam1 ∈ completedGames.map Prod.snd ∨
        o.getTeam2 ∈ completedGames.map Prod.snd
    · have hfilter : survivingOutcomes (o :: rest) completedGames =
          survivingOutcomes rest completedGames := by
        unfold survivingOutcomes
        rw [List.filter_cons, if_neg]
        simp only [decide_eq_true_eq, not_not]
        exact h
      rw [hfilter, List.foldl_cons, if_pos h]
      exact ih state
    · have hfilter : survivingOutcomes (o :: rest) completedGames =
          o :: survivingOutcomes rest completedGames := by
        unfold survivingOutcomes
        rw [List.filter_cons, if_pos]
        simp only [decide_eq_true_eq]
        exact h
      rw [hfilter, List.foldl_cons, List.foldl_cons, if_neg h]
      have hmem : ¬ (o.getTeam1 ∈ ([] : List (String × String)).map Prod.snd ∨
          o.getTeam2 ∈ ([] : List (String × String)).map Prod.snd) := by simp
      rw [if_neg hmem]
      exact ih _

/-- Claim C10: a dict-shaped outcome with no probability key is applied with
probability 1.0 (a certain win for team1), and a dict-shaped outcome with a
probability is treated exactly like the object-shaped outcome with the same
fields. -/
theorem apply_what_if_dict_default_probability {S : Type}
    (withOverride : S → String → String → ℚ → S)
    (withTeamAdjustment : S → String → ℚ → S) (state : S)
    (pre post : List GameOutcome) (ratingAdjustments : List (String × ℚ))
    (completedGames : List (String × String)) (t1 t2 : String) :
    (applyWhatIf withOverride withTeamAdjustment state
        (pre ++ [.dict t1 t2 none] ++ post) ratingAdjustments completedGames =
      applyWhatIf withOverride withTeamAdjustment state
        (pre ++ [.obj t1 t2 1] ++ post) ratingAdjustments completedGames) ∧
    ∀ p : ℚ,
      applyWhatIf withOverride withTeamAdjustment state
          (pre ++ [.dict t1 t2 (some p)] ++ post) ratingAdjustments completedGames =
        applyWhatIf withOverride withTeamAdjustment state
          (pre ++ [.obj t1 t2 p] ++ post) ratingAdjustments completedGames := by
  constructor
  · unfold applyWhatIf
    simp only []
    congr 1
    apply foldl_congr_middle
    intro b
    rfl
  · intro p
    unfold applyWhatIf
    simp only []
    congr 1
    apply foldl_congr_middle
    intro b
    rfl

/-- Claim C5: every game record produced by the batch game-importance
computation reports `adjusted_importance = |Δ⁺|·p² + |Δ⁻|·(1−p)²` with
`Δ⁺`/`Δ⁻` the portfolio deltas of the two batch-score scenarios of that game
from the current expected value, and the single-game impact endpoint computes
the same formula on `get_game_delta`'s deltas. -/
theorem adjusted_importance_formula (st : TournamentState)
    (classes : List (List String)) (positions : List (String × ℚ))
    (currentEv : ℚ) (batchResults : List (List (String × ℚ))) :
    (∀ (i j : ℕ) (games : List (String × String × ℕ)) (entry : GameImportanceEntry),
      (processGameImportanceGames st classes positions currentEv batchResults
          i games).get? j = some entry →
      entry.adjustedImportance = adjustedImportanceSpec
        (getPortfolioValue classes positions
          ((batchResults.get? ((i + j) * 2)).getD []) - currentEv)
        (getPortfolioValue classes positions
          ((batchResults.get? ((i + j) * 2 + 1)).getD []) - currentEv)
        entry.winProb) ∧
    ∀ winValue lossValue currentValue winProb : ℚ,
      gameImpactAdjustedImportance
          (getGameDeltaSummary winValue lossValue currentValue winProb) =
        adjustedImportanceSpec (winValue - currentValue)
          (lossValue - currentValue) winProb := by
  constructor
  · intro i j games
    induction games generalizing i j with
    | nil => intro entry h; simp [processGameImportanceGames] at h
    | cons g rest ih =>
      intro entry h
      obtain ⟨team1, team2, r⟩ := g
      cases j with
      | zero =>
        simp only [processGameImportanceGames, List.get?_cons_zero,
          Option.some_inj] at h
        subst h
        simp [gameImportanceEntry, adjustedImportanceSpec]
      | succ j' =>
        simp only [processGameImportanceGames, List.get?_cons_succ] at h
        have := ih (i + 1) j' entry h
        rwa [show i + 1 + j' = i + (j' + 1) by ring] at this
  · intro winValue lossValue currentValue winProb
    simp [gameImpactAdjustedImportance, getGameDeltaSummary, adjustedImportanceSpec]

/-- Witness for C5: a concrete one-game batch over the state `stW` and the
endpoint formula at concrete deltas. -/
theorem adjusted_importance_formula_witness :
    ((gameImportanceEntry stW [] [("A", 1)] 0 [[("A", 2)], [("B", 3)]]
        0 "A" "B" 0).adjustedImportance = adjustedImportanceSpec
      (getPortfolioValue [] [("A", 1)]
        (([[("A", 2)], [("B", 3)]].get? ((0 + 0) * 2)).getD []) - 0)
      (getPortfolioValue [] [("A", 1)]
        (([[("A", 2)], [("B", 3)]].get? ((0 + 0) * 2 + 1)).getD []) - 0)
      (gameImportanceEntry stW [] [("A", 1)] 0 [[("A", 2)], [("B", 3)]]
        0 "A" "B" 0).winProb) ∧
    gameImpactAdjustedImportance (getGameDeltaSummary 4 1 2 (1/2)) =
      adjustedImportanceSpec (4 - 2) (1 - 2) (1/2) := by
  have h := adjusted_importance_formula stW [] [("A", 1)] 0 [[("A", 2)], [("B", 3)]]
  exact ⟨h.1 0 0 [("A", "B", 0)] _ rfl, h.2 4 1 2 (1/2)⟩

/-- Claim C6: `compute_path_to_slot` returns the empty list whenever the
request is impossible — the team appears in no first-round slot, the round is
negative or beyond the last round, or the position differs from
`start_index >> round` — and raises no error (the embedding is total). -/
theorem compute_path_to_slot_impossible (st : TournamentState) (team : String)
    (targetRound targetPosition : ℤ) :
    (st.bracket.findIdx? (fun game => isKey game team) = none →
      computePathToSlot st team targetRound targetPosition = []) ∧
    (targetRound < 0 →
      computePathToSlot st team targetRound targetPosition = []) ∧
    (((computeBracketRounds st).length : ℤ) ≤ targetRound →
      computePathToSlot st team targetRound targetPosition = []) ∧
    (∀ startPos : ℕ,
      st.bracket.findIdx? (fun game => isKey game team) = some startPos →
      ((startPos / 2 ^ targetRound.toNat : ℕ) : ℤ) ≠ targetPosition →
      computePathToSlot st team targetRound targetPosition = []) := by
  unfold computePathToSlot computePathToSlotWithRounds
  refine ⟨?_, ?_, ?_, ?_⟩
  · intro h
    rw [h]
  · intro h
    cases hfind : st.bracket.findIdx? (fun game => isKey game team) with
    | none => rfl
    | some startPos => simp [h]
  · intro h
    cases hfind : st.bracket.findIdx? (fun game => isKey game team) with
    | none => rfl
    | some startPos =>
      by_cases h0 : targetRound < 0
      · simp [h0]
      · simp [h0, h]
  · intro startPos hfind hne
    simp only [hfind]
    by_cases h0 : targetRound < 0
    · rw [if_pos h0]
    · by_cases hlen : ((computeBracketRounds st).length : ℤ) ≤ targetRound
      · rw [if_neg h0, if_pos hlen]
      · rw [if_neg h0, if_neg hlen, if_pos hne]

/-- Witness for C6: an unknown team, a negative round, and a mismatched
position on the concrete state `stW` all yield the empty path. -/
theorem compute_path_to_slot_impossible_witness :
    computePathToSlot stW "Z" 0 0 = [] ∧
    computePathToSlot stW "A" (-1) 0 = [] ∧
    computePathToSlot stW "A" 1 5 = [] :=
  ⟨(compute_path_to_slot_impossible stW "Z" 0 0).1 (by decide),
   (compute_path_to_slot_impossible stW "A" (-1) 0).2.1 (by decide),
   (compute_path_to_slot_impossible stW "A" 1 5).2.2.2 0 (by decide) (by decide)⟩

/-- Claim C8: every candidate returned by `get_slot_candidates_with_deltas`
has occupancy probability at least `0.001` in the target slot (entries below
the floor are dropped before evaluation), and the returned list is sorted by
probability in descending order. -/
theorem slot_candidates_floor_and_sorted (classes : List (List String))
    (positions currentScores : List (String × ℚ))
    (calcScoresProbBatch : List (List (String × String × ℚ)) → List (List (String × ℚ)))
    (st : TournamentState) (targetRound targetPosition : ℕ) :
    (∀ c ∈ getSlotCandidatesWithDeltas classes positions currentScores
        calcScoresProbBatch st targetRound targetPosition,
      c.probability ≥ 1/1000) ∧
    (getSlotCandidatesWithDeltas classes positions currentScores
        calcScoresProbBatch st targetRound targetPosition).Sorted
      (fun a b => a.probability ≥ b.probability) := by
  haveI : IsTotal SlotCandidate (fun a b => a.probability ≥ b.probability) :=
    ⟨fun a b => le_total b.probability a.probability⟩
  haveI : IsTrans SlotCandidate (fun a b => a.probability ≥ b.probability) :=
    ⟨fun _ _ _ hab hbc => le_trans hbc hab⟩
  unfold getSlotCandidatesWithDeltas
  simp only []
  cases hround : (computeBracketRounds st).get? targetRound with
  | none =>
    simp only [hround]
    exact ⟨fun c hc => absurd hc (List.not_mem_nil c), List.sorted_nil⟩
  | some roundSlots =>
    simp only [hround]
    cases hpos : roundSlots.get? targetPosition with
    | none =>
      simp only [hpos]
      exact ⟨fun c hc => absurd hc (List.not_mem_nil c), List.sorted_nil⟩
    | some slotTeams =>
      simp only [hpos]
      by_cases hempty : (slotTeams.filter (fun e => e.snd ≥ 1/1000)).isEmpty
      · rw [if_pos hempty]
        exact ⟨fun c hc => absurd hc (List.not_mem_nil c), List.sorted_nil⟩
      · rw [if_neg hempty]
        constructor
        · intro c hc
          have hc' : c ∈ ((slotTeams.filter (fun e => e.snd ≥ 1/1000)).zip _).map
              (fun ce => (⟨ce.fst.fst, ce.fst.snd, _⟩ : SlotCandidate)) :=
            (List.perm_insertionSort _ _).mem_iff.mp hc
          rcases List.mem_map.mp hc' with ⟨ce, hce, hcec⟩
          have hmemfil : ce.fst ∈ slotTeams.filter (fun e => e.snd ≥ 1/1000) := by
            obtain ⟨a, b⟩ := ce
            exact (List.of_mem_zip hce).1
          have := (List.mem_filter.mp hmemfil).2
          have hprob : ce.fst.snd ≥ 1/1000 := of_decide_eq_true this
          rw [← hcec]
          exact hprob
        · exact List.sorted_insertionSort _ _

/-- Witness for C8: a concrete slot-candidate query over `stW` whose two
candidates both clear the probability floor and come back sorted. -/
theorem slot_candidates_floor_and_sorted_witness :
    ((1 : ℚ)/2 ≥ 1/1000) ∧
    (getSlotCandidatesWithDeltas [] [("A", 1)] [("A", 1)] (fun _ => [[], []]) stW 1 0).Sorted
      (fun a b => a.probability ≥ b.probability) := by
  have h := slot_candidates_floor_and_sorted [] [("A", 1)] [("A", 1)]
    (fun _ => [[], []]) stW 1 0
  have heval : getSlotCandidatesWithDeltas [] [("A", 1)] [("A", 1)]
      (fun _ => [[], []]) stW 1 0 =
      [⟨"A", 1/2, 0⟩, ⟨"B", 1/2, 0⟩] := by
    unfold getSlotCandidatesWithDeltas
    rw [stW_rounds]
    norm_num [List.insertionSort, List.orderedInsert]
  refine ⟨?_, h.2⟩
  have hmem : (⟨"A", (1:ℚ)/2, 0⟩ : SlotCandidate) ∈
      getSlotCandidatesWithDeltas [] [("A", 1)] [("A", 1)] (fun _ => [[], []]) stW 1 0 := by
    rw [heval]
    simp
  exact h.1 _ hmem

/-- Counterexample to C7 as stated: a run of `n = 2` simulations whose two
portfolio values are equal (an empty portfolio) with `b = 2` bins.  The
degenerate branch sets the bin width to 1, the first bin `[min, min+1)`
counts both values, and the last bin additionally counts both values again as
maxima, so the histogram counts sum to 4, not `n = 2` — and the bins span
`[min, min+2)`, not `[min, max]`. -/
theorem get_portfolio_distribution_count_sum_counterexample :
    (getPortfolioDistribution [] [] [] [[], []] [] 2).map
        (fun s => (s.histogram.map (fun b => b.count)).sum) = some 4 ∧
    ([[], []] : List (List (String × ℚ))).length = 2 ∧ (4 : ℕ) ≠ 2 := by
  refine ⟨?_, rfl, by norm_num⟩
  norm_num [getPortfolioDistribution, getPortfolioValue, getPortfolioValueGo,
    rustGetPortfolioValue, List.insertionSort, List.orderedInsert, percentileOf,
    List.range_succ]

theorem length_filter_cons {α : Type} (q : α → Bool) (v : α) (rest : List α) :
    ((v :: rest).filter q).length = (if q v then 1 else 0) + (rest.filter q).length := by
  by_cases h : q v <;> simp [List.filter_cons, h] <;> omega

theorem sum_map_add_nat {α : Type} (L : List α) (f g : α → ℕ) :
    (L.map (fun i => f i + g i)).sum = (L.map f).sum + (L.map g).sum := by
  induction L with
  | nil => simp
  | cons a t ih => simp [ih]; omega

theorem sum_ite_one {α : Type} (L : List α) (q : α → Bool) :
    (L.map (fun i => if q i then 1 else 0)).sum = (L.filter q).length := by
  induction L with
  | nil => simp
  | cons a t ih => by_cases h : q a <;> simp [List.filter_cons, h, ih] <;> omega

theorem sum_filter_swap {α β : Type} (L : List α) (l : List β) (p : α → β → Bool) :
    (L.map (fun i => (l.filter (p i)).length)).sum =
      (l.map (fun v => (L.filter (fun i => p i v)).length)).sum := by
  induction l with
  | nil => simp
  | cons v rest ih =>
    have h1 : (L.map (fun i => ((v :: rest).filter (p i)).length)).sum =
        (L.map (fun i => (if p i v then 1 else 0) + (rest.filter (p i)).length)).sum := by
      congr 1
      exact List.map_congr_left (fun i _ => length_filter_cons (p i) v rest)
    rw [h1, sum_map_add_nat, sum_ite_one, ih]
    simp

theorem range_filter_eq_single (b k : ℕ) (hk : k < b) (p : ℕ → Bool)
    (hp : ∀ i, p i = true ↔ i = k) : (List.range b).filter p = [k] := by
  induction b with
  | zero => omega
  | succ b' ih =>
    rw [List.range_succ, List.filter_append]
    by_cases hkb : k = b'
    · have h1 : (List.range b').filter p = [] := by
        rw [List.filter_eq_nil]
        intro i hi
        have hib : i < b' := List.mem_range.mp hi
        simp only [hp]
        omega
      have h2 : p b' = true := (hp b').mpr hkb.symm
      simp [h1, List.filter, h2, hkb]
    · have hk' : k < b' := by omega
      rw [ih hk']
      have h2 : ¬ p b' = true := fun hcon => hkb ((hp b').mp hcon).symm
      simp [List.filter, Bool.eq_false_iff.mpr h2]

theorem bin_cond_iff (m w : ℚ) (hw : 0 < w) (v : ℚ) (i : ℕ) :
    (m + i * w ≤ v ∧ v < m + (i + 1) * w) ↔ ⌊(v - m) / w⌋ = (i : ℤ) := by
  rw [Int.floor_eq_iff]
  constructor
  · rintro ⟨h1, h2⟩
    constructor
    · rw [le_div_iff hw]
      push_cast
      linarith
    · rw [div_lt_iff hw]
      push_cast
      linarith
  · rintro ⟨h1, h2⟩
    rw [le_div_iff hw] at h1
    rw [div_lt_iff hw] at h2
    push_cast at h1 h2
    constructor <;> linarith

theorem sum_map_ite_const {α : Type} [DecidableEq α] (L : List α) (k : α) (E : ℕ) :
    (L.map (fun i => if i = k then E else 0)).sum = L.count k * E := by
  induction L with
  | nil => simp
  | cons a t ih =>
    by_cases h : a = k
    · simp [h, ih, List.count_cons]
      ring
    · simp [h, ih, List.count_cons]

theorem filter_lt_add_filter_eq (l : List ℚ) (M : ℚ) (hM : ∀ v ∈ l, v ≤ M) :
    (l.filter (fun v => v < M)).length + (l.filter (fun v => v = M)).length
      = l.length := by
  induction l with
  | nil => simp
  | cons v rest ih =>
    have hrest := ih (fun x hx => hM x (List.mem_cons_of_mem _ hx))
    have hv := hM v (List.mem_cons_self _ _)
    by_cases h : v < M
    · have h2 : ¬ v = M := ne_of_lt h
      simp [List.filter_cons, h, h2]
      omega
    · have h2 : v = M := le_antisymm hv (not_lt.mp h)
      simp [List.filter_cons, h, h2]
      omega

theorem histogram_counts_sum (l : List ℚ) (m M : ℚ) (b : ℕ) (hb : 1 ≤ b)
    (hlt : m < M) (hm : ∀ v ∈ l, m ≤ v) (hM : ∀ v ∈ l, v ≤ M) :
    ((List.range b).map (fun (i : ℕ) =>
      (l.filter (fun v =>
        m + (i : ℚ) * ((M - m) / b) ≤ v ∧ v < m + ((i : ℚ) + 1) * ((M - m) / b))).length +
      if i = b - 1 then (l.filter (fun v => v = M)).length else 0)).sum
      = l.length := by
  have hb0 : (b : ℚ) ≠ 0 := by
    simp only [ne_eq, Nat.cast_eq_zero]
    omega
  have hw : 0 < (M - m) / b := by
    apply div_pos (by linarith)
    exact_mod_cast Nat.pos_of_ne_zero (by omega)
  have hbw : (b : ℚ) * ((M - m) / b) = M - m := by
    field_simp
  rw [sum_map_add_nat]
  have hlast : ((List.range b).map (fun i =>
      if i = b - 1 then (l.filter (fun v => v = M)).length else 0)).sum =
      (l.filter (fun v => v = M)).length := by
    rw [sum_map_ite_const]
    have hmem : b - 1 ∈ List.range b := List.mem_range.mpr (by omega)
    rw [List.count_eq_one_of_mem (List.nodup_range b) hmem]
    omega
  rw [hlast, sum_filter_swap]
  have hpoint : ∀ v ∈ l,
      ((List.range b).filter (fun (i : ℕ) =>
        decide (m + (i : ℚ) * ((M - m) / b) ≤ v ∧
          v < m + ((i : ℚ) + 1) * ((M - m) / b)))).length =
      if v < M then 1 else 0 := by
    intro v hv
    by_cases hvM : v < M
    · rw [if_pos hvM]
      have hfl0 : 0 ≤ ⌊(v - m) / ((M - m) / b)⌋ := by
        apply Int.floor_nonneg.mpr
        apply div_nonneg _ (le_of_lt hw)
        linarith [hm v hv]
      have hflb : ⌊(v - m) / ((M - m) / b)⌋ < b := by
        apply Int.floor_lt.mpr
        rw [div_lt_iff hw]
        push_cast
        linarith [hbw, hvM]
      rw [range_filter_eq_single b (⌊(v - m) / ((M - m) / b)⌋).toNat
        (by omega) _ ?_]
      · simp
      · intro i
        rw [decide_eq_true_eq, bin_cond_iff m _ hw v i]
        omega
    · rw [if_neg hvM]
      have hvM' : v = M := le_antisymm (hM v hv) (not_lt.mp hvM)
      rw [List.length_eq_zero]
      rw [List.filter_eq_nil]
      intro i hi
      have hib : i < b := List.mem_range.mp hi
      rw [decide_eq_true_eq]
      rintro ⟨_, h2⟩
      have hle : m + ((i : ℚ) + 1) * ((M - m) / b) ≤ m + b * ((M - m) / b) := by
        apply add_le_add_left
        apply mul_le_mul_of_nonneg_right _ (le_of_lt hw)
        push_cast
        exact_mod_cast Nat.succ_le_of_lt hib
      rw [hbw] at hle
      have : v < M := lt_of_lt_of_le h2 (by linarith)
      exact hvM this
  have hswap : (l.map (fun v =>
      ((List.range b).filter (fun (i : ℕ) =>
        decide (m + (i : ℚ) * ((M - m) / b) ≤ v ∧ v < m + ((i : ℚ) + 1) * ((M - m) / b)))).length)).sum =
      (l.map (fun v => if v < M then 1 else 0)).sum := by
    congr 1
    exact List.map_congr_left hpoint
  rw [hswap]
  have : (l.map (fun v => if v < M then 1 else 0)).sum =
      (l.filter (fun v => v < M)).length := by
    have := sum_ite_one l (fun v => decide (v < M))
    simpa using this
  rw [this]
  exact filter_lt_add_filter_eq l M hM

theorem sorted_head_le (v0 : ℚ) (rest : List ℚ)
    (hs : (v0 :: rest).Sorted (· ≤ ·)) : ∀ v ∈ v0 :: rest, v0 ≤ v := by
  intro v hv
  rcases List.mem_cons.mp hv with h | h
  · exact h ▸ le_refl v0
  · exact List.rel_of_sorted_cons hs v h

theorem sorted_le_getLast : ∀ (l : List ℚ) (h : l ≠ []), l.Sorted (· ≤ ·) →
    ∀ v ∈ l, v ≤ l.getLast h := by
  intro l
  induction l with
  | nil => intro h; simp at h
  | cons a t ih =>
    intro h hs v hv
    cases t with
    | nil =>
      simp at hv
      simp [hv, List.getLast]
    | cons b t' =>
      rw [List.getLast_cons (List.cons_ne_nil b t')]
      rcases List.mem_cons.mp hv with h1 | h1
      · subst h1
        calc v ≤ b := List.rel_of_sorted_cons hs b (List.mem_cons_self _ _)
          _ ≤ _ := ih (List.cons_ne_nil b t') hs.of_cons _ (List.mem_cons_self _ _)
      · exact ih (List.cons_ne_nil b t') hs.of_cons v h1

/-- Claim C7, amended: for every run of `get_portfolio_distribution` with
`n ≥ 1` simulations and `b ≥ 1` bins in which at least two distinct portfolio
values occur (min < max), the summary's min and max are the smallest and
largest simulated values, each reported percentile `p` is the sorted value at
index `int(p·n/100)` clamped to `n−1`, the histogram has exactly `b`
uniform-width bins spanning `[min, max]`, and the bin counts sum to exactly
`n`.  (As originally stated — without the min < max proviso — the claim is
false: see the counterexample.) -/
theorem get_portfolio_distribution_summary_correct
    (classes : List (List String)) (positions : List (String × ℚ))
    (bracketTeams : List String) (simResults : List (List (String × ℚ)))
    (expectedScores : List (String × ℚ)) (nBins : ℕ) (hb : 1 ≤ nBins)
    (s : DistributionSummary)
    (hsome : getPortfolioDistribution classes positions bracketTeams simResults
        expectedScores nBins = some s)
    (hneq : s.minValue < s.maxValue) :
    (s.minValue ∈ distributionValues classes positions bracketTeams simResults ∧
      ∀ v ∈ distributionValues classes positions bracketTeams simResults,
        s.minValue ≤ v) ∧
    (s.maxValue ∈ distributionValues classes positions bracketTeams simResults ∧
      ∀ v ∈ distributionValues classes positions bracketTeams simResults,
        v ≤ s.maxValue) ∧
    ([s.p1, s.p5, s.p10, s.p25, s.p50, s.p75, s.p90, s.p95, s.p99] =
      [1, 5, 10, 25, 50, 75, 90, 95, 99].map (fun p =>
        percentileOf
          (List.insertionSort (· ≤ ·)
            (distributionValues classes positions bracketTeams simResults))
          (distributionValues classes positions bracketTeams simResults).length p)) ∧
    s.histogram.length = nBins ∧
    (∀ (i : ℕ) (bin : HistogramBin), s.histogram.get? i = some bin →
      bin.binStart = s.minValue + (i : ℚ) * ((s.maxValue - s.minValue) / nBins) ∧
      bin.binEnd = s.minValue + ((i : ℚ) + 1) * ((s.maxValue - s.minValue) / nBins)) ∧
    (s.histogram.map (fun bin => bin.count)).sum = simResults.length := by
  unfold getPortfolioDistribution at hsome
  cases hsort : List.insertionSort (· ≤ ·)
      (distributionValues classes positions bracketTeams simResults) with
  | nil =>
    rw [hsort] at hsome
    simp at hsome
  | cons v0 rest =>
    rw [hsort] at hsome
    simp only [Option.some_inj] at hsome
    have hperm : (v0 :: rest).Perm
        (distributionValues classes positions bracketTeams simResults) := by
      rw [← hsort]
      exact List.perm_insertionSort _ _
    have hsorted : (v0 :: rest).Sorted (· ≤ ·) := by
      rw [← hsort]
      exact List.sorted_insertionSort _ _
    have hlen : (v0 :: rest).length =
        (distributionValues classes positions bracketTeams simResults).length :=
      hperm.length_eq
    have hlenSim : (distributionValues classes positions bracketTeams
        simResults).length = simResults.length := by
      simp [distributionValues]
    subst hsome
    simp only [] at hneq ⊢
    have hmin : ∀ v ∈ distributionValues classes positions bracketTeams simResults,
        v0 ≤ v := by
      intro v hv
      exact sorted_head_le v0 rest hsorted v (hperm.mem_iff.mpr hv)
    have hmax : ∀ v ∈ distributionValues classes positions bracketTeams simResults,
        v ≤ (v0 :: rest).getLast (List.cons_ne_nil v0 rest) := by
      intro v hv
      exact sorted_le_getLast (v0 :: rest) (List.cons_ne_nil v0 rest) hsorted v
        (hperm.mem_iff.mpr hv)
    refine ⟨⟨?_, hmin⟩, ⟨?_, hmax⟩, ?_, ?_, ?_, ?_⟩
    · exact hperm.mem_iff.mp (List.mem_cons_self v0 rest)
    · exact hperm.mem_iff.mp (List.getLast_mem (List.cons_ne_nil v0 rest))
    · rw [← hlen]
      rfl
    · show (List.map _ (List.range nBins)).length = nBins
      rw [List.length_map, List.length_range]
    · intro i bin hbin
      rw [List.get?_map] at hbin
      cases hri : (List.range nBins).get? i with
      | none => rw [hri] at hbin; simp at hbin
      | some j =>
        rw [hri] at hbin
        have hij : j = i := by
          have hilt : i < nBins := by
            by_contra hcon
            rw [List.get?_eq_none.mpr (by simpa using hcon)] at hri
            exact absurd hri (by simp)
          rw [List.get?_range hilt] at hri
          exact (Option.some_inj.mp hri).symm
        subst hij
        simp only [Option.map_some', Option.some_inj] at hbin
        subst hbin
        rw [if_pos hneq]
        exact ⟨rfl, rfl⟩
    · rw [List.map_map]
      rw [if_pos hneq]
      have hcong : (List.range nBins).map
          ((fun bin => bin.count) ∘ (fun (i : ℕ) =>
            (⟨v0 + (i : ℚ) * (((v0 :: rest).getLast (List.cons_ne_nil v0 rest) - v0) / nBins),
              v0 + ((i : ℚ) + 1) * (((v0 :: rest).getLast (List.cons_ne_nil v0 rest) - v0) / nBins),
              if i = nBins - 1 then
                ((v0 :: rest).filter (fun v =>
                  v0 + (i : ℚ) * (((v0 :: rest).getLast (List.cons_ne_nil v0 rest) - v0) / nBins) ≤ v ∧
                  v < v0 + ((i : ℚ) + 1) * (((v0 :: rest).getLast (List.cons_ne_nil v0 rest) - v0) / nBins))).length +
                ((v0 :: rest).filter (fun v =>
                  v = (v0 :: rest).getLast (List.cons_ne_nil v0 rest))).length
              else
                ((v0 :: rest).filter (fun v =>
                  v0 + (i : ℚ) * (((v0 :: rest).getLast (List.cons_ne_nil v0 rest) - v0) / nBins) ≤ v ∧
                  v < v0 + ((i : ℚ) + 1) * (((v0 :: rest).getLast (List.cons_ne_nil v0 rest) - v0) / nBins))).length⟩ :
              HistogramBin))) =
          (List.range nBins).map (fun (i : ℕ) =>
            ((v0 :: rest).filter (fun v =>
              v0 + (i : ℚ) * (((v0 :: rest).getLast (List.cons_ne_nil v0 rest) - v0) / nBins) ≤ v ∧
              v < v0 + ((i : ℚ) + 1) * (((v0 :: rest).getLast (List.cons_ne_nil v0 rest) - v0) / nBins))).length +
            if i = nBins - 1 then
              ((v0 :: rest).filter (fun v =>
                v = (v0 :: rest).getLast (List.cons_ne_nil v0 rest))).length
            else 0) := by
        apply List.map_congr_left
        intro i _
        by_cases h : i = nBins - 1 <;> simp [h]
      rw [hcong]
      rw [histogram_counts_sum (v0 :: rest) v0
        ((v0 :: rest).getLast (List.cons_ne_nil v0 rest)) nBins hb hneq
        (sorted_head_le v0 rest hsorted)
        (sorted_le_getLast (v0 :: rest) (List.cons_ne_nil v0 rest) hsorted)]
      rw [hlen, hlenSim]

theorem strAP : ¬ ("A" : String) = "points" := by decide

theorem distEval : getPortfolioDistribution [] [("A", 1)] ["A"]
    [[("A", 1)], [("A", 3)]] [] 2 =
    some ⟨0, 1, 3, 1, 1, 1, 1, 3, 3, 3, 3, 3,
      [⟨1, 2, 1⟩, ⟨2, 3, 1⟩]⟩ := by
  norm_num [getPortfolioDistribution, distributionValues, getPortfolioValue,
    getPortfolioValueGo, rustGetPortfolioValue, tryResolveName, resolveName,
    lookupClass, isKey, dictSet, List.insertionSort, List.orderedInsert,
    percentileOf, List.range_succ, strAP]

/-- Witness for C7 (amended): a two-simulation run with values 1 and 3 and
two bins; min/max, percentiles, bin layout, and the count sum `= n = 2` all
come from the amended theorem. -/
theorem get_portfolio_distribution_summary_correct_witness :
    ((1:ℚ) ∈ distributionValues [] [("A", 1)] ["A"] [[("A", 1)], [("A", 3)]]) ∧
    ((1:ℚ) ≤ 3) ∧
    (([(1:ℚ), 1, 1, 1, 3, 3, 3, 3, 3]) =
      [1, 5, 10, 25, 50, 75, 90, 95, 99].map (fun p =>
        percentileOf
          (List.insertionSort (· ≤ ·)
            (distributionValues [] [("A", 1)] ["A"] [[("A", 1)], [("A", 3)]]))
          (distributionValues [] [("A", 1)] ["A"] [[("A", 1)], [("A", 3)]]).length p)) ∧
    (([⟨1, 2, 1⟩, ⟨2, 3, 1⟩] : List HistogramBin).length = 2) ∧
    ((([⟨1, 2, 1⟩, ⟨2, 3, 1⟩] : List HistogramBin).map (fun bin => bin.count)).sum =
      ([[("A", 1)], [("A", 3)]] : List (List (String × ℚ))).length) := by
  have h := get_portfolio_distribution_summary_correct [] [("A", 1)] ["A"]
    [[("A", 1)], [("A", 3)]] [] 2 (by norm_num) _ distEval (by norm_num)
  exact ⟨h.1.1, h.1.2 3 h.2.1.1, h.2.2.1, h.2.2.2.1, h.2.2.2.2.2⟩

/-- Claim C9: the completed-games store never gains a game whose winner or
loser is not a bracket team, whose winner is already the loser of a stored
game, or whose `(winner, loser)` pair is already stored; on any such attempt
the request fails and the stored list is unchanged. -/
theorem add_completed_game_invariants (bracketTeams : List String)
    (completedGames : List (String × String)) (winner loser : String)
    (h : winner ∉ bracketTeams ∨ loser ∉ bracketTeams ∨
         winner ∈ completedGames.map Prod.snd ∨ (winner, loser) ∈ completedGames) :
    (routerAddCompletedGame bracketTeams completedGames winner loser).fst ≠
        AddGameResult.ok ∧
    (routerAddCompletedGame bracketTeams completedGames winner loser).snd =
        completedGames := by
  unfold routerAddCompletedGame dbAddCompletedGame
  by_cases h1 : winner ∉ bracketTeams
  · simp [h1]
  · by_cases h2 : loser ∉ bracketTeams
    · simp [h1, h2]
    · by_cases h3 : winner ∈ completedGames.map Prod.snd
      · simp [h1, h2, h3]
      · have h4 : (winner, loser) ∈ completedGames := by tauto
        simp [h1, h2, h3, h4]

/-- Witness for C9: re-adding an already-recorded game is rejected and the
store keeps its single row. -/
theorem add_completed_game_invariants_witness :
    (routerAddCompletedGame ["A", "B"] [("A", "B")] "A" "B").fst ≠
        AddGameResult.ok ∧
    (routerAddCompletedGame ["A", "B"] [("A", "B")] "A" "B").snd = [("A", "B")] :=
  add_completed_game_invariants ["A", "B"] [("A", "B")] "A" "B"
    (Or.inr (Or.inr (Or.inr (by decide))))

end Tourney
